import Mathlib

/-!
Shallow embedding of the draw-command recorder of `bevy_nannou_draw`
(`src/bevy_nannou_draw/src/draw/mod.rs` and
`src/bevy_nannou_draw/src/draw/indirect.rs`).

Modelling conventions:
* `glam` `f32` vectors and matrices are embedded with integer entries; the
  claims only exercise exact values (identity, integer translations), for
  which `f32` arithmetic is exact.
* `HashMap<usize, Primitive>` (`State::drawing`) is an association list,
  `HashSet<usize>` (`State::instanced`) a list of indices, and
  `Vec<Option<DrawCommand>>` a `List (Option DrawCommand)`.
* Type-erased boxed material values (`Box<dyn Any + Send + Sync>`) carry no
  information the claims inspect, so the value component is `Unit`.
* `indirect.rs` was written against a revision in which the slot-exclusion
  set of `State` is called `ignored_drawings` and `DrawCommand` has an
  `Indirect` variant; `mod.rs` names the set `instanced`.  The embedding
  uses one `State` with the `mod.rs` field names and a `DrawCommand` that
  includes the `Indirect` variant pushed by `indirect.rs`.
* Code that can panic (`Option::unwrap` in
  `Indirect::insert_indirect_draw_command`) is embedded in `Option`, with
  `none` denoting the panic.
-/

namespace Nannou

/-- Integer-valued stand-in for `glam::Vec3` (claims only use exact values). -/
structure Vec3 where
  x : Int
  y : Int
  z : Int
deriving DecidableEq, Repr

/-- Integer-valued stand-in for `glam::Vec4`. -/
structure Vec4 where
  x : Int
  y : Int
  z : Int
  w : Int
deriving DecidableEq, Repr

/-- Column-major 4x4 matrix, mirroring `glam::Mat4` (four column vectors). -/
structure Mat4 where
  x_axis : Vec4
  y_axis : Vec4
  z_axis : Vec4
  w_axis : Vec4
deriving DecidableEq, Repr

def Vec4.add (a b : Vec4) : Vec4 :=
  ⟨a.x + b.x, a.y + b.y, a.z + b.z, a.w + b.w⟩

def Vec4.smul (k : Int) (v : Vec4) : Vec4 :=
  ⟨k * v.x, k * v.y, k * v.z, k * v.w⟩

/-- `Mat4::mul_vec4`: linear combination of the columns. -/
def Mat4.mul_vec4 (m : Mat4) (v : Vec4) : Vec4 :=
  (Vec4.smul v.x m.x_axis).add
    ((Vec4.smul v.y m.y_axis).add
      ((Vec4.smul v.z m.z_axis).add (Vec4.smul v.w m.w_axis)))

/-- Matrix product `a * b` as in `glam` (apply `a` to each column of `b`). -/
def Mat4.mul (a b : Mat4) : Mat4 :=
  ⟨a.mul_vec4 b.x_axis, a.mul_vec4 b.y_axis, a.mul_vec4 b.z_axis,
    a.mul_vec4 b.w_axis⟩

/-- `Mat4::IDENTITY`. -/
def Mat4.IDENTITY : Mat4 :=
  ⟨⟨1, 0, 0, 0⟩, ⟨0, 1, 0, 0⟩, ⟨0, 0, 1, 0⟩, ⟨0, 0, 0, 1⟩⟩

/-- `Mat4::from_translation`: identity columns with the translation in
`w_axis`. -/
def Mat4.from_translation (v : Vec3) : Mat4 :=
  ⟨⟨1, 0, 0, 0⟩, ⟨0, 1, 0, 0⟩, ⟨0, 0, 1, 0⟩, ⟨v.x, v.y, v.z, 1⟩⟩

/-- Stand-in for `bevy::Color` (opaque to all claims). -/
abbrev Color := Int

/-- `UntypedAssetId::Uuid { type_id, uuid }`, the opaque material identity. -/
structure MaterialId where
  type_id : Nat
  uuid : Nat
deriving DecidableEq, Repr

/-- The current transform of a `Draw` instance (`DrawContext` in `mod.rs`). -/
structure DrawContext where
  transform : Mat4
deriving DecidableEq, Repr

/-- `DrawContext::default()` is the identity transform. -/
def DrawContext.default : DrawContext :=
  ⟨Mat4.IDENTITY⟩

/-- Modelled from the spec: the `Primitive` enum lives in
`draw/primitive/mod.rs`, which is not under `src/` (only `tri.rs` is).
Geometry payloads are reduced to the dimension data the claims mention
(`none` means "not yet specified, theme default applies"). -/
inductive Primitive where
  | ellipse (dims : Option (Int × Int))
  | rect (w : Option Int)
  | tri (a b c : Int × Int)
  | other (tag : Nat)
deriving DecidableEq, Repr

/-- Stand-in for `InstanceMaterialData` (opaque to all claims). -/
abbrev InstanceMaterialData := Nat

/-- Stand-in for `Handle<ShaderStorageBuffer>` (opaque to all claims). -/
abbrev BufferHandle := Nat

/-- The `DrawCommand` enum of `mod.rs`, extended with the `Indirect` variant
pushed by `indirect.rs` (see the header note on the two revisions). -/
inductive DrawCommand where
  | Primitive (p : Nannou.Primitive)
  | Instanced (p : Nannou.Primitive) (data : InstanceMaterialData)
  | Indirect (p : Nannou.Primitive) (buf : BufferHandle)
      (vbuf : Option BufferHandle)
  | Context (ctx : DrawContext)
  | Material (id : MaterialId)
  | BackgroundColor (c : Color)
deriving DecidableEq, Repr

/-- `IntermediaryState`: reusable scratch buffers.  Element data is opaque to
the claims; only the fact that `reset` clears each buffer matters. -/
structure IntermediaryState where
  intermediary_mesh : List Nat
  path_event_buffer : List Nat
  path_points_colored_buffer : List (Int × Int × Color)
  path_points_textured_buffer : List (Int × Int)
  text_buffer : String
deriving DecidableEq, Repr

/-- `IntermediaryState::reset`: clear every scratch buffer. -/
def IntermediaryState.reset (_st : IntermediaryState) : IntermediaryState :=
  ⟨[], [], [], [], ""⟩

/-- Modelled from the spec: `theme.rs` is not under `src/`; the theme only
holds default property values never inspected by the claims. -/
structure Theme where
  default_color : Color
deriving DecidableEq, Repr

/-- The shared session state (`State` in `mod.rs`). -/
structure State where
  last_material : Option MaterialId
  last_draw_context : Option DrawContext
  background_color : Option Color
  drawing : List (Nat × Primitive)
  materials : List (MaterialId × Unit)
  instanced : List Nat
  draw_commands : List (Option DrawCommand)
  intermediary_state : IntermediaryState
  theme : Theme
deriving DecidableEq, Repr

/-- `State::default()`. -/
def State.empty : State :=
  { last_material := none
    last_draw_context := none
    background_color := none
    drawing := []
    materials := []
    instanced := []
    draw_commands := []
    intermediary_state := ⟨[], [], [], [], ""⟩
    theme := ⟨0⟩ }

/-- A `Draw` handle: its own context and material id.  The shared `State` is
passed explicitly to every operation (it sits behind `Arc<RwLock>` in the
source); the `window` entity and the `PhantomData` marker carry no state the
claims inspect. -/
structure DrawHandle where
  context : DrawContext
  material : MaterialId
deriving DecidableEq, Repr

/-- `HashMap::get` on the `drawing` table (association-list lookup). -/
def alistGet : List (Nat × Primitive) → Nat → Option Primitive
  | [], _ => none
  | (k, v) :: t, i => if k = i then some v else alistGet t i

/-- `HashMap::remove` on the `drawing` table: drop the entry with the key. -/
def alistErase : List (Nat × Primitive) → Nat → List (Nat × Primitive)
  | [], _ => []
  | (k, v) :: t, i => if k = i then t else (k, v) :: alistErase t i

/-- `HashMap::insert` on the `drawing` table: overwrite or append. -/
def alistInsert : List (Nat × Primitive) → Nat → Primitive →
    List (Nat × Primitive)
  | [], i, p => [(i, p)]
  | (k, v) :: t, i, p =>
    if k = i then (i, p) :: t else (k, v) :: alistInsert t i p

/-- Update the value stored under a key in the `drawing` table. -/
def alistUpdate : List (Nat × Primitive) → Nat → (Primitive → Primitive) →
    List (Nat × Primitive)
  | [], _, _ => []
  | (k, v) :: t, i, f =>
    if k = i then (k, f v) :: t else (k, v) :: alistUpdate t i f

namespace State

/-- `State::reset` (`mod.rs` lines 191-199): clears the change-detection
fields, the background request, the drawing table, the material table, the
command log and the scratch buffers.  The `instanced` set and the theme are
not touched. -/
def reset (s : State) : State :=
  { s with
    last_material := none
    last_draw_context := none
    background_color := none
    drawing := []
    materials := []
    draw_commands := []
    intermediary_state := s.intermediary_state.reset }

/-- `State::insert_draw_command` (`mod.rs` lines 223-227): `if let
Some(elem) = self.draw_commands.get_mut(index)` then overwrite the element,
else do nothing. -/
def insert_draw_command (s : State) (index : Nat) (prim : Primitive) :
    State :=
  match s.draw_commands[index]? with
  | some _ =>
    { s with
      draw_commands :=
        s.draw_commands.set index (some (DrawCommand.Primitive prim)) }
  | none => s

/-- `State::finish_drawing` (`mod.rs` lines 211-220): skip slots marked
instanced; otherwise remove the in-progress entry and, when one existed,
commit it into its reserved slot. -/
def finish_drawing (s : State) (index : Nat) : State :=
  if s.instanced.contains index then s
  else
    match alistGet s.drawing index with
    | some primitive =>
      insert_draw_command { s with drawing := alistErase s.drawing index }
        index primitive
    | none => s

/-- `State::finish_remaining_drawings` (`mod.rs` lines 202-208): drain the
whole `drawing` table, committing each entry into its slot.  Note that this
path does not consult the `instanced` set. -/
def finish_remaining_drawings (s : State) : State :=
  s.drawing.foldl (fun st ip => st.insert_draw_command ip.1 ip.2)
    { s with drawing := [] }

end State

namespace Draw

/-- `Draw::new` (`mod.rs` lines 234-251): default state with one default
material inserted; the handle starts with the identity context and that
material id. -/
def new (material_id : MaterialId) : DrawHandle × State :=
  (⟨DrawContext.default, material_id⟩,
    { State.empty with materials := [(material_id, ())] })

/-- `Draw::a` (`mod.rs` lines 521-552): under one critical section, emit a
`Context` command when the handle's context differs from the last emitted
one, emit a `Material` command when the handle's material differs from the
last emitted one, then reserve the next slot (push `None`, record the
in-progress primitive under the slot index). -/
def a (h : DrawHandle) (s : State) (p : Primitive) : State × Nat :=
  let s1 :=
    if s.last_draw_context = some h.context then s
    else
      { s with
        draw_commands :=
          s.draw_commands ++ [some (DrawCommand.Context h.context)]
        last_draw_context := some h.context }
  let s2 :=
    if s1.last_material = some h.material then s1
    else
      { s1 with
        draw_commands :=
          s1.draw_commands ++ [some (DrawCommand.Material h.material)]
        last_material := some h.material }
  let index := s2.draw_commands.length
  ({ s2 with
      draw_commands := s2.draw_commands ++ [none]
      drawing := alistInsert s2.drawing index p },
    index)

/-- `Draw::context` (`mod.rs` lines 459-471): a fresh handle sharing the
state, carrying the given context and the same material. -/
def context (h : DrawHandle) (ctx : DrawContext) : DrawHandle :=
  ⟨ctx, h.material⟩

/-- `Draw::transform` (`mod.rs` lines 276-280): right-multiply the handle's
transform by the given matrix and derive a new handle. -/
def transform (h : DrawHandle) (m : Mat4) : DrawHandle :=
  Draw.context h ⟨h.context.transform.mul m⟩

/-- `Draw::translate`. -/
def translate (h : DrawHandle) (v : Vec3) : DrawHandle :=
  Draw.transform h (Mat4.from_translation v)

/-- `Draw::finish_remaining_drawings` (`mod.rs` lines 642-652): flush a
pending material change for this handle, then force-finalize every
in-progress drawing. -/
def finish_remaining_drawings (h : DrawHandle) (s : State) : State :=
  let s1 :=
    if s.last_material = some h.material then s
    else
      { s with
        draw_commands :=
          s.draw_commands ++ [some (DrawCommand.Material h.material)]
        last_material := some h.material }
  State.finish_remaining_drawings s1

/-- `Draw::drain_commands` (`mod.rs` lines 631-639): force-finalize the
outstanding drawings, swap the command log for an empty one, and yield the
drained entries with the `None` placeholders filtered out. -/
def drain_commands (h : DrawHandle) (s : State) :
    List DrawCommand × State :=
  let s1 := Draw.finish_remaining_drawings h s
  (s1.draw_commands.filterMap id, { s1 with draw_commands := [] })

end Draw

/-- Modelled from the spec: `drawing.rs` is not under `src/`.  A `Drawing`
builder's scope exit calls `State::finish_drawing` on its reserved slot
(spec section 3, "Primitive Builder lifetime"). -/
def Drawing.drop (s : State) (index : Nat) : State :=
  s.finish_drawing index

/-- Modelled from the spec: a chained `Drawing` setter mutates the
in-progress value found at its slot in `drawing` (spec section 4.2). -/
def Drawing.map_primitive (s : State) (index : Nat)
    (f : Primitive → Primitive) : State :=
  { s with drawing := alistUpdate s.drawing index f }

/-- The `Indirect` guard of `indirect.rs` (lines 32-40). -/
structure Indirect where
  primitive_index : Option Nat
  indirect_buffer : Option BufferHandle
  vertex_buffer : Option BufferHandle
deriving DecidableEq, Repr

namespace Indirect

/-- `indirect::new` (lines 54-64). -/
def fresh : Indirect :=
  ⟨none, none, none⟩

/-- `Indirect::primitive` (`indirect.rs` lines 70-82): add the captured
drawing's slot to the exclusion set (`ignored_drawings` there, `instanced`
in `mod.rs`) and remember the index.  The captured `Drawing` is consumed by
the call; its own drop is a no-op because the slot is now excluded. -/
def primitive (g : Indirect) (s : State) (index : Nat) : Indirect × State :=
  ({ g with primitive_index := some index },
    { s with instanced := index :: s.instanced })

/-- `Indirect::buffer` (`indirect.rs` lines 84-87). -/
def buffer (g : Indirect) (ssbo : BufferHandle) : Indirect :=
  { g with indirect_buffer := some ssbo }

/-- `Indirect::insert_indirect_draw_command` (`indirect.rs` lines 89-102):
`state.drawing.remove(&index).unwrap()` (the `none` result is the panic),
then push the `Indirect` command at the end of the log. -/
def insert_indirect_draw_command (s : State) (index : Nat)
    (indirect_buffer : BufferHandle)
    (vertex_buffer : Option BufferHandle) : Option State :=
  match alistGet s.drawing index with
  | some primitive =>
    some
      { s with
        drawing := alistErase s.drawing index
        draw_commands :=
          s.draw_commands ++
            [some (DrawCommand.Indirect primitive indirect_buffer
              vertex_buffer)] }
  | none => none

/-- `impl Drop for Indirect` (`indirect.rs` lines 42-52): only when both a
captured index and an args buffer are present is the indirect command
committed; otherwise the drop does nothing. -/
def drop (g : Indirect) (s : State) : Option State :=
  match g.primitive_index, g.indirect_buffer with
  | some index, some ssbo =>
    insert_indirect_draw_command s index ssbo g.vertex_buffer
  | _, _ => some s

end Indirect

/-- Modelled from the spec: `instanced.rs` is not under `src/`.  The
instancing guard captures one drawing's slot and, on drop with instance
data present, commits an `Instanced` command (spec sections 4.2 and 4.4),
mirroring the structure of the `Indirect` guard in `indirect.rs`. -/
structure InstancedGuard where
  primitive_index : Option Nat
  instance_data : Option InstanceMaterialData
deriving DecidableEq, Repr

namespace InstancedGuard

/-- Modelled from the spec: capture a drawing for instancing by adding its
slot to the `instanced` exclusion set. -/
def primitive (g : InstancedGuard) (s : State) (index : Nat) :
    InstancedGuard × State :=
  ({ g with primitive_index := some index },
    { s with instanced := index :: s.instanced })

/-- Modelled from the spec: commit the captured primitive as an `Instanced`
command, removing it from the drawing table (panic when absent, as in the
`Indirect` twin). -/
def insert_instanced_draw_command (s : State) (index : Nat)
    (data : InstanceMaterialData) : Option State :=
  match alistGet s.drawing index with
  | some primitive =>
    some
      { s with
        drawing := alistErase s.drawing index
        draw_commands :=
          s.draw_commands ++ [some (DrawCommand.Instanced primitive data)] }
  | none => none

/-- Modelled from the spec: the guard's drop commits only when both an index
and instance data were supplied. -/
def drop (g : InstancedGuard) (s : State) : Option State :=
  match g.primitive_index, g.instance_data with
  | some index, some data => insert_instanced_draw_command s index data
  | _, _ => some s

end InstancedGuard

/-- One session operation of a frame, as issued through some handle. -/
inductive Op where
  | reserve (h : DrawHandle) (p : Primitive)
  | finish (i : Nat)
  | capture (i : Nat)
  | instancedCommit (i : Nat) (data : InstanceMaterialData)
  | indirectCommit (i : Nat) (buf : BufferHandle)
      (vbuf : Option BufferHandle)
deriving Repr

/-- Execute one operation; `none` is a panic of the source. -/
def stepO (s : State) : Op → Option State
  | Op.reserve h p => some (Draw.a h s p).1
  | Op.finish i => some (s.finish_drawing i)
  | Op.capture i => some { s with instanced := i :: s.instanced }
  | Op.instancedCommit i data =>
    InstancedGuard.insert_instanced_draw_command s i data
  | Op.indirectCommit i buf vbuf =>
    Indirect.insert_indirect_draw_command s i buf vbuf

/-- Execute a list of operations in order. -/
def runOps : State → List Op → Option State
  | s, [] => some s
  | s, op :: ops =>
    match stepO s op with
    | some s1 => runOps s1 ops
    | none => none

/-- Terminal commands: the entries of the drained output that correspond to
one started primitive each. -/
def isTerminal : DrawCommand → Bool
  | DrawCommand.Primitive _ => true
  | DrawCommand.Instanced _ _ => true
  | DrawCommand.Indirect _ _ _ => true
  | _ => false

/-- Terminal entries of the raw command log. -/
def optTerm : Option DrawCommand → Bool
  | some c => isTerminal c
  | none => false

/-- Number of terminal entries in the command log. -/
def termCountL (l : List (Option DrawCommand)) : Nat :=
  l.countP optTerm

/-- Number of `reserve` operations (primitive-constructor calls). -/
def reserveCount (ops : List Op) : Nat :=
  ops.countP fun op =>
    match op with
    | Op.reserve _ _ => true
    | _ => false

/-- The session invariant tying the command log to the in-progress table:
every in-progress slot is a reserved `none` placeholder, slot keys are
unique, and the number of terminal commands plus in-progress entries equals
the number of constructor calls made so far. -/
def GoodState (s : State) (n : Nat) : Prop :=
  (∀ ip ∈ s.drawing, s.draw_commands[ip.1]? = some none) ∧
    (s.drawing.map Prod.fst).Nodup ∧
    termCountL s.draw_commands + s.drawing.length = n

/-! Concrete scenario values used by counterexamples and witnesses. -/

/-- A concrete default-material id ("material A"). -/
def matA : MaterialId :=
  ⟨0, 0⟩

/-- Handle H0: identity context, material A. -/
def H0 : DrawHandle :=
  ⟨DrawContext.default, matA⟩

/-- A fresh session sharing state with `H0`. -/
def freshS : State :=
  (Draw.new matA).2

/-- Handle H1 derived from H0 by `translate(x = 5)`. -/
def H1 : DrawHandle :=
  Draw.translate H0 ⟨5, 0, 0⟩

/-- Scenario step: `H0.ellipse()` reserves slot 0 area. -/
def c7_s1 : State × Nat :=
  Draw.a H0 freshS (Primitive.ellipse none)

/-- Scenario step: the ellipse builder is dropped unconfigured. -/
def c7_s2 : State :=
  c7_s1.1.finish_drawing c7_s1.2

/-- Scenario step: `H1.rect()`. -/
def c7_s3 : State × Nat :=
  Draw.a H1 c7_s2 (Primitive.rect none)

/-- Scenario step: the rect builder's width is set to 10. -/
def c7_s4 : State :=
  Drawing.map_primitive c7_s3.1 c7_s3.2 fun _ => Primitive.rect (some 10)

/-- Scenario step: the rect builder is dropped. -/
def c7_s5 : State :=
  c7_s4.finish_drawing c7_s3.2

/-- The command sequence the claim expects for the H0/H1 scenario. -/
def c7_claimed : List DrawCommand :=
  [DrawCommand.Material matA,
    DrawCommand.Primitive (Primitive.ellipse none),
    DrawCommand.Context ⟨Mat4.from_translation ⟨5, 0, 0⟩⟩,
    DrawCommand.Primitive (Primitive.rect (some 10))]

/-- The command sequence the code actually produces for that scenario. -/
def c7_actual : List DrawCommand :=
  [DrawCommand.Context DrawContext.default,
    DrawCommand.Material matA,
    DrawCommand.Primitive (Primitive.ellipse none),
    DrawCommand.Context ⟨Mat4.from_translation ⟨5, 0, 0⟩⟩,
    DrawCommand.Primitive (Primitive.rect (some 10))]

/-- A session in which slot 0 was reserved, captured for instancing, and
whose extension never committed: the entry is still in `drawing` when the
frame is drained. -/
def c4_state : State :=
  { State.empty with
    last_material := some matA
    draw_commands := [none]
    drawing := [(0, Primitive.ellipse none)]
    instanced := [0] }

/-- An `Indirect` guard that captured slot 0 but was never given an args
buffer. -/
def c5_guard : Indirect :=
  ⟨some 0, none, none⟩

/-- The session seen by `c5_guard` at drop time. -/
def c5_state : State :=
  { State.empty with
    draw_commands := [none]
    drawing := [(0, Primitive.ellipse none)]
    instanced := [0] }

/-- A session with one in-progress drawing in slot 0. -/
def c6_state : State :=
  { State.empty with
    draw_commands := [none]
    drawing := [(0, Primitive.tri (0, 0) (1, 0) (0, 1))] }

/-- A sample frame: one constructor call, then its scope exit. -/
def c1_ops : List Op :=
  [Op.reserve H0 (Primitive.ellipse none), Op.finish 2]

/-- The session state after running `c1_ops` from a fresh session. -/
def c1_state : State :=
  (runOps freshS c1_ops).getD freshS

/-- A session with two reserved slots for the order witnesses. -/
def c3_state : State :=
  { State.empty with
    draw_commands := [none, none]
    drawing := [(0, Primitive.ellipse none), (1, Primitive.rect none)] }

/-- A next-frame session: slot 0 was marked instanced in the previous frame
(the set survives `reset`), and a new primitive was reserved at index 0. -/
def c9_next : State :=
  { State.empty with
    instanced := [0]
    drawing := [(0, Primitive.rect none)]
    draw_commands := [none] }

/-! Helper lemmas about the embedded operations. -/

theorem insert_draw_command_drawing (s : State) (i : Nat) (p : Primitive) :
    (s.insert_draw_command i p).drawing = s.drawing := by
  unfold State.insert_draw_command
  cases s.draw_commands[i]? <;> rfl

theorem insert_draw_command_last_material (s : State) (i : Nat)
    (p : Primitive) :
    (s.insert_draw_command i p).last_material = s.last_material := by
  unfold State.insert_draw_command
  cases s.draw_commands[i]? <;> rfl

theorem insert_draw_command_instanced (s : State) (i : Nat) (p : Primitive) :
    (s.insert_draw_command i p).instanced = s.instanced := by
  unfold State.insert_draw_command
  cases s.draw_commands[i]? <;> rfl

theorem insert_draw_command_cmds (s : State) (i : Nat) (p : Primitive) :
    (s.insert_draw_command i p).draw_commands =
      if i < s.draw_commands.length then
        s.draw_commands.set i (some (DrawCommand.Primitive p))
      else s.draw_commands := by
  unfold State.insert_draw_command
  cases hc : s.draw_commands[i]? with
  | none =>
    have : ¬ i < s.draw_commands.length := by
      intro hlt
      rw [List.getElem?_eq_getElem hlt] at hc
      exact Option.noConfusion hc
    simp [this]
  | some c =>
    have : i < s.draw_commands.length := (List.getElem?_eq_some.mp hc).1
    simp [this]

theorem alistGet_some_mem {l : List (Nat × Primitive)} {i : Nat}
    {p : Primitive} (h : alistGet l i = some p) : (i, p) ∈ l := by
  induction l with
  | nil => exact Option.noConfusion h
  | cons kv t ih =>
    obtain ⟨k, v⟩ := kv
    by_cases hk : k = i
    · simp only [alistGet, hk, if_pos rfl] at h
      cases h
      subst hk
      exact List.mem_cons_self _ _
    · simp only [alistGet, if_neg hk] at h
      exact List.mem_cons_of_mem _ (ih h)

theorem mem_alistErase {l : List (Nat × Primitive)} {i : Nat}
    {ip : Nat × Primitive} (h : ip ∈ alistErase l i) : ip ∈ l := by
  induction l with
  | nil => exact absurd h (List.not_mem_nil ip)
  | cons kv t ih =>
    obtain ⟨k, v⟩ := kv
    by_cases hk : k = i
    · simp only [alistErase, if_pos hk] at h
      exact List.mem_cons_of_mem _ h
    · simp only [alistErase, if_neg hk] at h
      rcases List.mem_cons.mp h with h1 | h2
      · exact h1 ▸ List.mem_cons_self _ _
      · exact List.mem_cons_of_mem _ (ih h2)

theorem keys_alistErase_sublist (l : List (Nat × Primitive)) (i : Nat) :
    ((alistErase l i).map Prod.fst).Sublist (l.map Prod.fst) := by
  induction l with
  | nil => simp [alistErase]
  | cons kv t ih =>
    obtain ⟨k, v⟩ := kv
    by_cases hk : k = i
    · simp only [alistErase, if_pos hk, List.map_cons]
      exact List.Sublist.cons _ (List.Sublist.refl _)
    · simp only [alistErase, if_neg hk, List.map_cons]
      exact List.Sublist.cons₂ _ ih

theorem keys_alistErase_nodup {l : List (Nat × Primitive)} {i : Nat}
    (h : (l.map Prod.fst).Nodup) :
    ((alistErase l i).map Prod.fst).Nodup :=
  (keys_alistErase_sublist l i).nodup h

theorem length_alistErase_of_get {l : List (Nat × Primitive)} {i : Nat}
    {p : Primitive} (h : alistGet l i = some p) :
    l.length = (alistErase l i).length + 1 := by
  induction l with
  | nil => exact Option.noConfusion h
  | cons kv t ih =>
    obtain ⟨k, v⟩ := kv
    by_cases hk : k = i
    · simp [alistErase, hk]
    · simp only [alistGet, if_neg hk] at h
      simp [alistErase, hk, ih h]

theorem mem_alistErase_key_ne {l : List (Nat × Primitive)} {i : Nat}
    {ip : Nat × Primitive} (hnd : (l.map Prod.fst).Nodup)
    (h : ip ∈ alistErase l i) (hi : ∃ p, alistGet l i = some p) :
    ip.1 ≠ i := by
  induction l with
  | nil => exact absurd h (List.not_mem_nil ip)
  | cons kv t ih =>
    obtain ⟨k, v⟩ := kv
    simp only [List.map_cons, List.nodup_cons] at hnd
    by_cases hk : k = i
    · simp only [alistErase, if_pos hk] at h
      intro hip
      exact hnd.1 (by rw [hk, ← hip]; exact List.mem_map_of_mem Prod.fst h)
    · simp only [alistErase, if_neg hk] at h
      obtain ⟨p, hp⟩ := hi
      simp only [alistGet, if_neg hk] at hp
      rcases List.mem_cons.mp h with h1 | h2
      · subst h1
        exact hk
      · exact ih hnd.2 h2 ⟨p, hp⟩

theorem alistGet_erase_self {l : List (Nat × Primitive)} {i : Nat}
    (hnd : (l.map Prod.fst).Nodup) :
    alistGet (alistErase l i) i = none := by
  induction l with
  | nil => rfl
  | cons kv t ih =>
    obtain ⟨k, v⟩ := kv
    simp only [List.map_cons, List.nodup_cons] at hnd
    by_cases hk : k = i
    · simp only [alistErase, if_pos hk]
      subst hk
      cases hg : alistGet t k with
      | none => rfl
      | some p =>
        exact absurd (List.mem_map_of_mem Prod.fst (alistGet_some_mem hg))
          hnd.1
    · simp only [alistErase, if_neg hk, alistGet, if_neg hk]
      exact ih hnd.2

theorem alistGet_erase_ne {l : List (Nat × Primitive)} {i j : Nat}
    (hij : j ≠ i) : alistGet (alistErase l i) j = alistGet l j := by
  induction l with
  | nil => rfl
  | cons kv t ih =>
    obtain ⟨k, v⟩ := kv
    by_cases hk : k = i
    · have hkj : ¬ k = j := fun h => hij (by rw [← h, hk])
      simp only [alistErase, if_pos hk, alistGet, if_neg hkj]
    · by_cases hkj : k = j
      · simp only [alistErase, if_neg hk, alistGet, if_pos hkj]
      · simp only [alistErase, if_neg hk, alistGet, if_neg hkj]
        exact ih

theorem alistErase_comm (l : List (Nat × Primitive)) (i j : Nat) :
    alistErase (alistErase l i) j = alistErase (alistErase l j) i := by
  by_cases hij : i = j
  · subst hij; rfl
  · induction l with
    | nil => rfl
    | cons kv t ih =>
      obtain ⟨k, v⟩ := kv
      by_cases hki : k = i
      · have hkj : ¬ k = j := fun h => hij (by rw [← hki, h])
        simp only [alistErase, if_pos hki, if_neg hkj, if_pos hki]
      · by_cases hkj : k = j
        · simp only [alistErase, if_neg hki, if_pos hkj]
        · simp only [alistErase, if_neg hki, if_neg hkj, List.cons.injEq,
            true_and]
          exact ih

theorem alistInsert_fresh {l : List (Nat × Primitive)} {i : Nat}
    (p : Primitive) (h : ∀ ip ∈ l, ip.1 ≠ i) :
    alistInsert l i p = l ++ [(i, p)] := by
  induction l with
  | nil => rfl
  | cons kv t ih =>
    obtain ⟨k, v⟩ := kv
    have hk : ¬ k = i := h (k, v) (List.mem_cons_self _ _)
    simp only [alistInsert, if_neg hk, List.cons_append, List.cons.injEq,
      true_and]
    exact ih fun ip hip => h ip (List.mem_cons_of_mem _ hip)

theorem finish_drawing_contains_eq (s : State) (i : Nat)
    (h : s.instanced.contains i = true) : s.finish_drawing i = s := by
  unfold State.finish_drawing
  rw [h]
  simp

theorem finish_drawing_get_none (s : State) (i : Nat)
    (hco : s.instanced.contains i = false)
    (hg : alistGet s.drawing i = none) : s.finish_drawing i = s := by
  unfold State.finish_drawing
  rw [hco, hg]
  simp

theorem finish_drawing_get_some (s : State) (i : Nat) (p : Primitive)
    (hco : s.instanced.contains i = false)
    (hg : alistGet s.drawing i = some p) :
    s.finish_drawing i =
      State.insert_draw_command { s with drawing := alistErase s.drawing i }
        i p := by
  unfold State.finish_drawing
  rw [hco, hg]
  simp

theorem termCountL_append (l m : List (Option DrawCommand)) :
    termCountL (l ++ m) = termCountL l + termCountL m :=
  List.countP_append _ l m

theorem termCountL_set {l : List (Option DrawCommand)} {i : Nat}
    (c : DrawCommand) (h : l[i]? = some none) :
    termCountL (l.set i (some c)) =
      termCountL l + (if isTerminal c then 1 else 0) := by
  induction l generalizing i with
  | nil => exact Option.noConfusion h
  | cons a t ih =>
    cases i with
    | zero =>
      simp only [List.getElem?_cons_zero, Option.some.injEq] at h
      subst h
      simp [termCountL, List.countP_cons, optTerm]
    | succ n =>
      simp only [List.getElem?_cons_succ] at h
      have := ih h
      simp only [termCountL] at this
      simp only [List.set_cons_succ, termCountL, List.countP_cons, this]
      omega

theorem countP_filterMap_id (l : List (Option DrawCommand)) :
    (l.filterMap id).countP isTerminal = termCountL l := by
  induction l with
  | nil => rfl
  | cons a t ih =>
    cases a with
    | none => simpa [termCountL, List.countP_cons, optTerm] using ih
    | some c =>
      simp only [termCountL] at ih
      simp [termCountL, List.countP_cons, optTerm, ih]

/-- C10: `State::insert_draw_command` is total: an in-bounds index
overwrites that entry with `Some(Primitive(value))`, an out-of-bounds index
leaves the log untouched, and no other field of the state changes. -/
theorem insert_draw_command_total (s : State) (i : Nat) (p : Primitive) :
    ((s.insert_draw_command i p).draw_commands =
        if i < s.draw_commands.length then
          s.draw_commands.set i (some (DrawCommand.Primitive p))
        else s.draw_commands) ∧
      (s.insert_draw_command i p).draw_commands.length =
        s.draw_commands.length ∧
      s.insert_draw_command i p =
        { s with draw_commands := (s.insert_draw_command i p).draw_commands } := by
  refine ⟨insert_draw_command_cmds s i p, ?_, ?_⟩
  · rw [insert_draw_command_cmds]
    by_cases hlt : i < s.draw_commands.length <;> simp [hlt]
  · unfold State.insert_draw_command
    cases s.draw_commands[i]? <;> rfl

/-- C4 counterexample: a slot marked for instancing whose extension never
committed is force-finalized by `drain_commands` as a plain `Primitive`
command, so the drained sequence does contain a plain `Primitive` for an
instanced slot. -/
theorem instanced_slot_drained_plain_cex :
    (Draw.drain_commands H0 c4_state).1 =
        [DrawCommand.Primitive (Primitive.ellipse none)] ∧
      c4_state.instanced.contains 0 = true := by
  constructor <;> rfl

/-- C4 amended: the scope-exit commit (`State::finish_drawing`) never
commits a plain `Primitive` for a slot in the `instanced` set: it returns
with the state unchanged.  (Drain-time force-finalization, by contrast,
does not consult the `instanced` set.) -/
theorem finish_drawing_skips_instanced (s : State) (i : Nat)
    (h : s.instanced.contains i = true) : s.finish_drawing i = s :=
  finish_drawing_contains_eq s i h

/-- C4 witness: the amended skip rule evaluated on a concrete instanced
slot. -/
theorem finish_drawing_skips_instanced_witness :
    c4_state.finish_drawing 0 = c4_state :=
  finish_drawing_skips_instanced c4_state 0 (by decide)

/-- C5 counterexample: dropping an `Indirect` binding that captured a
primitive but never received an args buffer neither fails nor pushes a
command: the drop succeeds (`some`), the state is unchanged, and the
captured primitive is still in the drawing table. -/
theorem indirect_drop_missing_buffer_cex :
    Indirect.drop c5_guard c5_state = some c5_state ∧
      alistGet c5_state.drawing 0 = some (Primitive.ellipse none) := by
  constructor <;> rfl

/-- C5 amended: committing (dropping) an `Indirect` binding whose args
buffer was never supplied is a silent no-op: no command is pushed, no
failure occurs, and the captured primitive stays in the drawing table (to
be force-committed as a plain `Primitive` at the next drain). -/
theorem indirect_drop_no_buffer_noop (g : Indirect) (s : State)
    (h : g.indirect_buffer = none) : Indirect.drop g s = some s := by
  unfold Indirect.drop
  rw [h]
  cases g.primitive_index <;> rfl

/-- C5 witness: the amended no-op rule evaluated on a concrete bufferless
guard. -/
theorem indirect_drop_no_buffer_noop_witness :
    Indirect.drop ⟨some 1, none, none⟩ State.empty = some State.empty :=
  indirect_drop_no_buffer_noop ⟨some 1, none, none⟩ State.empty rfl

/-- C2: in `Draw::a`, a `Context` command is appended exactly when the
handle's context differs from the last emitted one, a `Material` command
exactly when the handle's material differs from the last emitted one; both
change-detection fields are updated to the handle's values, so an
immediately following call through the same handle appends no further
change command (only its `none` placeholder). -/
theorem draw_a_change_detection (h : DrawHandle) (s : State)
    (p q : Primitive) :
    ((Draw.a h s p).1.draw_commands =
        s.draw_commands ++
          ((if s.last_draw_context = some h.context then []
            else [some (DrawCommand.Context h.context)]) ++
            ((if s.last_material = some h.material then []
              else [some (DrawCommand.Material h.material)]) ++ [none]))) ∧
      (Draw.a h s p).1.last_draw_context = some h.context ∧
      (Draw.a h s p).1.last_material = some h.material ∧
      (Draw.a h (Draw.a h s p).1 q).1.draw_commands =
        (Draw.a h s p).1.draw_commands ++ [none] := by
  by_cases hc : s.last_draw_context = some h.context <;>
    by_cases hm : s.last_material = some h.material <;>
      simp [Draw.a, hc, hm]

/-- C6 counterexample: double-finalizing slot 0 of a concrete session is a
silent no-op, not a failure: the second call returns the state of the first
unchanged, with the committed command intact. -/
theorem double_finish_silent_cex :
    (c6_state.finish_drawing 0).finish_drawing 0 =
        c6_state.finish_drawing 0 ∧
      (c6_state.finish_drawing 0).draw_commands =
        [some (DrawCommand.Primitive (Primitive.tri (0, 0) (1, 0) (0, 1)))] := by
  constructor <;> rfl

/-- C6 amended: finalizing a slot a second time is a silent idempotent
no-op (the in-progress entry is gone, so the commit rule does nothing); no
"already finalized" condition is raised and no other slot is touched. -/
theorem finish_drawing_idempotent (s : State) (i : Nat)
    (hnd : (s.drawing.map Prod.fst).Nodup) :
    (s.finish_drawing i).finish_drawing i = s.finish_drawing i := by
  cases hI : s.instanced.contains i with
  | true =>
    rw [finish_drawing_contains_eq s i hI, finish_drawing_contains_eq s i hI]
  | false =>
    cases hg : alistGet s.drawing i with
    | none =>
      rw [finish_drawing_get_none s i hI hg, finish_drawing_get_none s i hI hg]
    | some p =>
      rw [finish_drawing_get_some s i p hI hg]
      have hIns : (State.insert_draw_command
          { s with drawing := alistErase s.drawing i } i p).instanced =
            s.instanced :=
        insert_draw_command_instanced _ i p
      have hDr : (State.insert_draw_command
          { s with drawing := alistErase s.drawing i } i p).drawing =
            alistErase s.drawing i :=
        insert_draw_command_drawing _ i p
      refine finish_drawing_get_none _ i ?_ ?_
      · rw [hIns]; exact hI
      · rw [hDr]; exact alistGet_erase_self hnd

/-- C6 witness: the amended idempotence rule evaluated on the concrete
double-finalized session. -/
theorem finish_drawing_idempotent_witness :
    (c6_state.finish_drawing 0).finish_drawing 0 =
      c6_state.finish_drawing 0 :=
  finish_drawing_idempotent c6_state 0 (by decide)

/-- C7 counterexample: the H0/H1 scenario does not produce the claimed
sequence: the very first constructor call also emits a `Context` command
for H0's identity context, because `last_draw_context` starts as `None`. -/
theorem scenario_h0_h1_cex :
    (Draw.drain_commands H1 c7_s5).1 ≠ c7_claimed := by
  decide

/-- C7 amended: the scenario produces
`[ContextChange(identity), MaterialChange(A), Primitive(default ellipse),
ContextChange(identity * translate 5), Primitive(rect w=10)]`; H1 carries
the composed transform and H0's own context is left unchanged by H1's
derivation. -/
theorem scenario_h0_h1_actual :
    (Draw.drain_commands H1 c7_s5).1 = c7_actual ∧
      H1.context =
        ⟨Mat4.IDENTITY.mul (Mat4.from_translation ⟨5, 0, 0⟩)⟩ ∧
      H0.context = DrawContext.default := by
  refine ⟨by decide, rfl, rfl⟩

/-- C8 counterexample: draining a fresh session in which no primitive calls
were made yields the material flush command, not the empty sequence. -/
theorem fresh_drain_nonempty_cex :
    (Draw.drain_commands H0 freshS).1 = [DrawCommand.Material matA] ∧
      (Draw.drain_commands H0 freshS).1 ≠ [] := by
  constructor
  · rfl
  · decide

theorem foldl_insert_drawing (l : List (Nat × Primitive)) (s : State) :
    (l.foldl (fun st ip => st.insert_draw_command ip.1 ip.2) s).drawing =
      s.drawing := by
  induction l generalizing s with
  | nil => rfl
  | cons a t ih => rw [List.foldl_cons, ih, insert_draw_command_drawing]

theorem foldl_insert_last_material (l : List (Nat × Primitive)) (s : State) :
    (l.foldl (fun st ip => st.insert_draw_command ip.1 ip.2) s).last_material
      = s.last_material := by
  induction l generalizing s with
  | nil => rfl
  | cons a t ih => rw [List.foldl_cons, ih, insert_draw_command_last_material]

theorem flush_last_material (h : DrawHandle) (s : State) :
    (Draw.finish_remaining_drawings h s).last_material = some h.material := by
  unfold Draw.finish_remaining_drawings State.finish_remaining_drawings
  rw [foldl_insert_last_material]
  by_cases hm : s.last_material = some h.material <;> simp [hm]

theorem flush_drawing_nil (h : DrawHandle) (s : State) :
    (Draw.finish_remaining_drawings h s).drawing = [] := by
  unfold Draw.finish_remaining_drawings State.finish_remaining_drawings
  rw [foldl_insert_drawing]

/-- C8 amended: a `drain_commands()` immediately following another
`drain_commands()` through the same handle, with no intervening primitive
calls, returns the empty sequence (the first drain emptied the log and the
drawing table and recorded the handle's material as last emitted). -/
theorem drain_twice_empty (h : DrawHandle) (s : State) :
    (Draw.drain_commands h (Draw.drain_commands h s).2).1 = [] := by
  have hlm : (Draw.drain_commands h s).2.last_material = some h.material :=
    flush_last_material h s
  have hdr : (Draw.drain_commands h s).2.drawing = [] :=
    flush_drawing_nil h s
  have hdc : (Draw.drain_commands h s).2.draw_commands = [] := rfl
  generalize hgen : (Draw.drain_commands h s).2 = t at hlm hdr hdc
  show ((Draw.finish_remaining_drawings h t).draw_commands.filterMap id) = []
  unfold Draw.finish_remaining_drawings
  rw [if_pos hlm]
  unfold State.finish_remaining_drawings
  simp [hdr, hdc]

/-- C9: `State::reset` clears the command log, the drawing table, the
material table, both change-detection fields, the background request and
the scratch buffers, but leaves the `instanced` slot-index set unchanged;
consequently any later state carrying that same set still skips the
scope-exit commit for a previously marked slot index. -/
theorem reset_preserves_instanced (s : State) :
    (s.reset).instanced = s.instanced ∧
      (s.reset).draw_commands = [] ∧
      (s.reset).drawing = [] ∧
      (s.reset).materials = [] ∧
      (s.reset).last_material = none ∧
      (s.reset).last_draw_context = none ∧
      (s.reset).background_color = none ∧
      (s.reset).intermediary_state = ⟨[], [], [], [], ""⟩ ∧
      (∀ i, (s.reset).instanced.contains i = true →
        ∀ t : State, t.instanced = s.instanced → t.finish_drawing i = t) := by
  refine ⟨rfl, rfl, rfl, rfl, rfl, rfl, rfl, rfl, ?_⟩
  intro i hi t ht
  apply finish_drawing_contains_eq
  rw [ht]
  exact hi

/-- C9 witness: after a reset that kept slot 0 in the instanced set, the
next frame's scope-exit commit for a fresh slot-0 reservation is skipped. -/
theorem reset_preserves_instanced_witness :
    (c4_state.reset).instanced = c4_state.instanced ∧
      c9_next.finish_drawing 0 = c9_next :=
  ⟨(reset_preserves_instanced c4_state).1,
    (reset_preserves_instanced c4_state).2.2.2.2.2.2.2.2 0 (by decide)
      c9_next rfl⟩

theorem finish_drawing_instanced (s : State) (i : Nat) :
    (s.finish_drawing i).instanced = s.instanced := by
  cases hI : s.instanced.contains i with
  | true => rw [finish_drawing_contains_eq s i hI]
  | false =>
    cases hg : alistGet s.drawing i with
    | none => rw [finish_drawing_get_none s i hI hg]
    | some p =>
      rw [finish_drawing_get_some s i p hI hg, insert_draw_command_instanced]

theorem alistGet_finish_ne (s : State) (i j : Nat) (hij : i ≠ j) :
    alistGet (s.finish_drawing j).drawing i = alistGet s.drawing i := by
  cases hI : s.instanced.contains j with
  | true => rw [finish_drawing_contains_eq s j hI]
  | false =>
    cases hg : alistGet s.drawing j with
    | none => rw [finish_drawing_get_none s j hI hg]
    | some p =>
      rw [finish_drawing_get_some s j p hI hg, insert_draw_command_drawing]
      exact alistGet_erase_ne hij

theorem finish_drawing_cmds_of_some (s : State) (i : Nat) (p : Primitive)
    (hI : s.instanced.contains i = false)
    (hg : alistGet s.drawing i = some p) :
    (s.finish_drawing i).draw_commands =
      if i < s.draw_commands.length then
        s.draw_commands.set i (some (DrawCommand.Primitive p))
      else s.draw_commands := by
  rw [finish_drawing_get_some s i p hI hg, insert_draw_command_cmds]

theorem finish_drawing_cmds_ne (s : State) (i k : Nat) (hk : k ≠ i) :
    (s.finish_drawing i).draw_commands[k]? = s.draw_commands[k]? := by
  cases hI : s.instanced.contains i with
  | true => rw [finish_drawing_contains_eq s i hI]
  | false =>
    cases hg : alistGet s.drawing i with
    | none => rw [finish_drawing_get_none s i hI hg]
    | some p =>
      rw [finish_drawing_cmds_of_some s i p hI hg]
      by_cases hlt : i < s.draw_commands.length
      · rw [if_pos hlt]
        exact List.getElem?_set_ne (Ne.symm hk)
      · rw [if_neg hlt]

/-- C3: force-finalization order does not affect the command log: the logs
obtained by finalizing two distinct reserved slots in either order are
equal, and finalizing one slot leaves every other log position untouched —
each commit fills only its own pre-reserved slot, so drained commands
appear in reservation order. -/
theorem finish_drawing_reservation_order (s : State) (i j k : Nat)
    (hij : i ≠ j) (hk : k ≠ i) :
    ((s.finish_drawing i).finish_drawing j).draw_commands =
        ((s.finish_drawing j).finish_drawing i).draw_commands ∧
      (s.finish_drawing i).draw_commands[k]? = s.draw_commands[k]? := by
  refine ⟨?_, finish_drawing_cmds_ne s i k hk⟩
  cases hIi : s.instanced.contains i with
  | true =>
    rw [finish_drawing_contains_eq s i hIi,
      finish_drawing_contains_eq (s.finish_drawing j) i
        (by rw [finish_drawing_instanced]; exact hIi)]
  | false =>
    cases hIj : s.instanced.contains j with
    | true =>
      rw [finish_drawing_contains_eq s j hIj,
        finish_drawing_contains_eq (s.finish_drawing i) j
          (by rw [finish_drawing_instanced]; exact hIj)]
    | false =>
      have hIi' : (s.finish_drawing j).instanced.contains i = false := by
        rw [finish_drawing_instanced]; exact hIi
      have hIj' : (s.finish_drawing i).instanced.contains j = false := by
        rw [finish_drawing_instanced]; exact hIj
      cases hgi : alistGet s.drawing i with
      | none =>
        rw [finish_drawing_get_none s i hIi hgi,
          finish_drawing_get_none (s.finish_drawing j) i hIi'
            (by rw [alistGet_finish_ne s i j hij]; exact hgi)]
      | some p =>
        cases hgj : alistGet s.drawing j with
        | none =>
          rw [finish_drawing_get_none s j hIj hgj,
            finish_drawing_get_none (s.finish_drawing i) j hIj'
              (by rw [alistGet_finish_ne s j i (Ne.symm hij)]; exact hgj)]
        | some q =>
          rw [finish_drawing_cmds_of_some (s.finish_drawing i) j q hIj'
              (by rw [alistGet_finish_ne s j i (Ne.symm hij)]; exact hgj),
            finish_drawing_cmds_of_some (s.finish_drawing j) i p hIi'
              (by rw [alistGet_finish_ne s i j hij]; exact hgi),
            finish_drawing_cmds_of_some s i p hIi hgi,
            finish_drawing_cmds_of_some s j q hIj hgj]
          by_cases hi : i < s.draw_commands.length <;>
            by_cases hj : j < s.draw_commands.length
          · simp only [if_pos hi, if_pos hj, List.length_set, if_pos hi,
              if_pos hj]
            exact List.set_comm _ _ _ hij
          · simp only [if_pos hi, if_neg hj, List.length_set, if_pos hi,
              if_neg hj]
          · simp only [if_neg hi, if_pos hj, List.length_set, if_neg hi,
              if_pos hj]
          · simp only [if_neg hi, if_neg hj]

/-- C3 witness: the order rule evaluated on a concrete two-slot session. -/
theorem finish_drawing_reservation_order_witness :
    ((c3_state.finish_drawing 0).finish_drawing 1).draw_commands =
        ((c3_state.finish_drawing 1).finish_drawing 0).draw_commands ∧
      (c3_state.finish_drawing 0).draw_commands[1]? =
        c3_state.draw_commands[1]? :=
  finish_drawing_reservation_order c3_state 0 1 1 (by decide) (by decide)

theorem getElem?_append_lt {α : Type} (l m : List α) (i : Nat)
    (hlt : i < l.length) : (l ++ m)[i]? = l[i]? := by
  rw [List.getElem?_append]
  simp [hlt]

theorem draw_a_shape (h : DrawHandle) (s : State) (p : Primitive) :
    (Draw.a h s p).1.draw_commands =
        (s.draw_commands ++
          ((if s.last_draw_context = some h.context then []
            else [some (DrawCommand.Context h.context)]) ++
            (if s.last_material = some h.material then []
              else [some (DrawCommand.Material h.material)]))) ++ [none] ∧
      (Draw.a h s p).1.drawing =
        alistInsert s.drawing
          (s.draw_commands ++
            ((if s.last_draw_context = some h.context then []
              else [some (DrawCommand.Context h.context)]) ++
              (if s.last_material = some h.material then []
                else [some (DrawCommand.Material h.material)]))).length p := by
  by_cases hc : s.last_draw_context = some h.context <;>
    by_cases hm : s.last_material = some h.material <;>
      simp [Draw.a, hc, hm]

theorem good_reserve_core (dc : List (Option DrawCommand))
    (dr : List (Nat × Primitive)) (n : Nat)
    (extra : List (Option DrawCommand)) (p : Primitive)
    (h1 : ∀ ip ∈ dr, dc[ip.1]? = some none)
    (h2 : (dr.map Prod.fst).Nodup)
    (h3 : termCountL dc + dr.length = n)
    (hextra : ∀ c ∈ extra, optTerm c = false) :
    (∀ ip ∈ alistInsert dr (dc ++ extra).length p,
        ((dc ++ extra) ++ [none])[ip.1]? = some none) ∧
      ((alistInsert dr (dc ++ extra).length p).map Prod.fst).Nodup ∧
      termCountL ((dc ++ extra) ++ [none]) +
          (alistInsert dr (dc ++ extra).length p).length = n + 1 := by
  have hfresh : ∀ ip ∈ dr, ip.1 ≠ (dc ++ extra).length := by
    intro ip hip
    have hlt : ip.1 < dc.length := (List.getElem?_eq_some.mp (h1 ip hip)).1
    rw [List.length_append]
    omega
  rw [alistInsert_fresh p hfresh]
  refine ⟨?_, ?_, ?_⟩
  · intro ip hip
    rcases List.mem_append.mp hip with hold | hnew
    · have hlt : ip.1 < dc.length :=
        (List.getElem?_eq_some.mp (h1 ip hold)).1
      rw [getElem?_append_lt _ _ _ (by rw [List.length_append]; omega),
        getElem?_append_lt _ _ _ hlt]
      exact h1 ip hold
    · have : ip = ((dc ++ extra).length, p) := by
        simpa using hnew
      rw [this]
      exact List.getElem?_concat_length (dc ++ extra) none
  · have hnd : ∀ x : Primitive, (dc.length + extra.length, x) ∉ dr := by
      intro x hx
      have hne := hfresh (dc.length + extra.length, x) hx
      rw [List.length_append] at hne
      exact hne rfl
    simp [List.nodup_append, h2, hnd]
  · have hzero : termCountL extra = 0 := by
      refine List.countP_eq_zero.mpr ?_
      intro c hc
      simp [hextra c hc]
    have hnone : termCountL [(none : Option DrawCommand)] = 0 := rfl
    rw [termCountL_append, termCountL_append, hzero, hnone,
      List.length_append]
    simp only [List.length_cons, List.length_nil]
    omega

theorem good_reserve (h : DrawHandle) (s : State) (p : Primitive) (n : Nat)
    (hg : GoodState s n) : GoodState (Draw.a h s p).1 (n + 1) := by
  obtain ⟨h1, h2, h3⟩ := hg
  obtain ⟨hcm, hdr⟩ := draw_a_shape h s p
  have hextra : ∀ c ∈
      ((if s.last_draw_context = some h.context then []
        else [some (DrawCommand.Context h.context)]) ++
        (if s.last_material = some h.material then []
          else [some (DrawCommand.Material h.material)])),
      optTerm c = false := by
    intro c hc
    rcases List.mem_append.mp hc with hmem | hmem <;>
      by_cases hcc : s.last_draw_context = some h.context <;>
        by_cases hmm : s.last_material = some h.material <;>
          simp [hcc, hmm] at hmem <;> simp [hmem, optTerm, isTerminal]
  have core := good_reserve_core s.draw_commands s.drawing n _ p h1 h2 h3
    hextra
  refine ⟨?_, ?_, ?_⟩
  · rw [hdr]
    intro ip hip
    rw [hcm]
    exact core.1 ip hip
  · rw [hdr]
    exact core.2.1
  · rw [hcm, hdr]
    exact core.2.2

theorem good_finish (s : State) (i : Nat) (n : Nat) (hg : GoodState s n) :
    GoodState (s.finish_drawing i) n := by
  obtain ⟨h1, h2, h3⟩ := hg
  cases hI : s.instanced.contains i with
  | true =>
    rw [finish_drawing_contains_eq s i hI]
    exact ⟨h1, h2, h3⟩
  | false =>
    cases hget : alistGet s.drawing i with
    | none =>
      rw [finish_drawing_get_none s i hI hget]
      exact ⟨h1, h2, h3⟩
    | some p =>
      have hmem : (i, p) ∈ s.drawing := alistGet_some_mem hget
      have hcmd : s.draw_commands[i]? = some none := h1 _ hmem
      have hlt : i < s.draw_commands.length :=
        (List.getElem?_eq_some.mp hcmd).1
      have hcmds : (s.finish_drawing i).draw_commands =
          s.draw_commands.set i (some (DrawCommand.Primitive p)) := by
        rw [finish_drawing_cmds_of_some s i p hI hget, if_pos hlt]
      have hdrw : (s.finish_drawing i).drawing =
          alistErase s.drawing i := by
        rw [finish_drawing_get_some s i p hI hget,
          insert_draw_command_drawing]
      refine ⟨?_, ?_, ?_⟩
      · simp only [hcmds, hdrw]
        intro ip hip
        have hne : ip.1 ≠ i := mem_alistErase_key_ne h2 hip ⟨p, hget⟩
        rw [List.getElem?_set_ne (Ne.symm hne)]
        exact h1 ip (mem_alistErase hip)
      · rw [hdrw]
        exact keys_alistErase_nodup h2
      · rw [hcmds, hdrw, termCountL_set _ hcmd]
        have hlen := length_alistErase_of_get hget
        simp only [isTerminal, if_pos]
        omega

theorem good_commit (s : State) (i : Nat) (p : Primitive)
    (cmd : DrawCommand) (n : Nat) (hterm : isTerminal cmd = true)
    (hget : alistGet s.drawing i = some p) (hg : GoodState s n) :
    GoodState
      { s with
        drawing := alistErase s.drawing i
        draw_commands := s.draw_commands ++ [some cmd] } n := by
  obtain ⟨h1, h2, h3⟩ := hg
  refine ⟨?_, keys_alistErase_nodup h2, ?_⟩
  · intro ip hip
    have hold := h1 ip (mem_alistErase hip)
    have hlt : ip.1 < s.draw_commands.length :=
      (List.getElem?_eq_some.mp hold).1
    show (s.draw_commands ++ [some cmd])[ip.1]? = some none
    rw [getElem?_append_lt _ _ _ hlt]
    exact hold
  · show termCountL (s.draw_commands ++ [some cmd]) +
      (alistErase s.drawing i).length = n
    rw [termCountL_append]
    have hlen := length_alistErase_of_get hget
    have hone : termCountL [some cmd] = 1 := by
      simp [termCountL, List.countP_cons, optTerm, hterm]
    omega

theorem good_step (s s' : State) (op : Op) (n : Nat) (hg : GoodState s n)
    (hs : stepO s op = some s') : GoodState s' (n + reserveCount [op]) := by
  cases op with
  | reserve h p =>
    cases hs
    simpa [reserveCount] using good_reserve h s p n hg
  | finish i =>
    cases hs
    simpa [reserveCount] using good_finish s i n hg
  | capture i =>
    cases hs
    have : GoodState { s with instanced := i :: s.instanced } n := hg
    simpa [reserveCount] using this
  | instancedCommit i d =>
    simp only [stepO, InstancedGuard.insert_instanced_draw_command] at hs
    cases hget : alistGet s.drawing i with
    | none => rw [hget] at hs; exact Option.noConfusion hs
    | some p =>
      rw [hget] at hs
      cases hs
      simpa [reserveCount] using
        good_commit s i p (DrawCommand.Instanced p d) n rfl hget hg
  | indirectCommit i b vb =>
    simp only [stepO, Indirect.insert_indirect_draw_command] at hs
    cases hget : alistGet s.drawing i with
    | none => rw [hget] at hs; exact Option.noConfusion hs
    | some p =>
      rw [hget] at hs
      cases hs
      simpa [reserveCount] using
        good_commit s i p (DrawCommand.Indirect p b vb) n rfl hget hg

theorem good_run (ops : List Op) : ∀ (s s' : State) (n : Nat),
    GoodState s n → runOps s ops = some s' →
    GoodState s' (n + reserveCount ops) := by
  induction ops with
  | nil =>
    intro s s' n hg hr
    cases hr
    simpa [reserveCount] using hg
  | cons op t ih =>
    intro s s' n hg hr
    unfold runOps at hr
    cases hstep : stepO s op with
    | none => rw [hstep] at hr; exact Option.noConfusion hr
    | some s1 =>
      rw [hstep] at hr
      have g1 := good_step s s1 op n hg hstep
      have g2 := ih s1 s' _ g1 hr
      have harg : n + reserveCount [op] + reserveCount t =
          n + reserveCount (op :: t) := by
        simp [reserveCount, List.countP_cons]
        omega
      rw [harg] at g2
      exact g2

theorem fold_insert_count (l : List (Nat × Primitive)) : ∀ (s : State),
    (∀ ip ∈ l, s.draw_commands[ip.1]? = some none) →
    (l.map Prod.fst).Nodup →
    termCountL
        ((l.foldl (fun st ip => st.insert_draw_command ip.1 ip.2)
          s).draw_commands) =
      termCountL s.draw_commands + l.length := by
  induction l with
  | nil =>
    intro s _ _
    simp
  | cons a t ih =>
    intro s h1 h2
    obtain ⟨i, p⟩ := a
    have hcmd : s.draw_commands[i]? = some none :=
      h1 (i, p) (List.mem_cons_self _ _)
    have hlt : i < s.draw_commands.length :=
      (List.getElem?_eq_some.mp hcmd).1
    have hcmds : (s.insert_draw_command i p).draw_commands =
        s.draw_commands.set i (some (DrawCommand.Primitive p)) := by
      rw [insert_draw_command_cmds, if_pos hlt]
    simp only [List.map_cons, List.nodup_cons] at h2
    have htail : ∀ ip ∈ t,
        (s.insert_draw_command i p).draw_commands[ip.1]? = some none := by
      intro ip hip
      have hne : i ≠ ip.1 := by
        intro heq
        exact h2.1 (heq ▸ List.mem_map_of_mem Prod.fst hip)
      rw [hcmds, List.getElem?_set_ne hne]
      exact h1 ip (List.mem_cons_of_mem _ hip)
    rw [List.foldl_cons]
    rw [ih (s.insert_draw_command i p) htail h2.2, hcmds,
      termCountL_set _ hcmd]
    simp only [isTerminal, if_pos, List.length_cons]
    omega

theorem good_flush (h : DrawHandle) (s : State) (n : Nat)
    (hg : GoodState s n) :
    GoodState
      (if s.last_material = some h.material then s
        else
          { s with
            draw_commands :=
              s.draw_commands ++ [some (DrawCommand.Material h.material)]
            last_material := some h.material }) n := by
  obtain ⟨h1, h2, h3⟩ := hg
  by_cases hm : s.last_material = some h.material
  · rw [if_pos hm]
    exact ⟨h1, h2, h3⟩
  · rw [if_neg hm]
    refine ⟨?_, h2, ?_⟩
    · intro ip hip
      have hold := h1 ip hip
      have hlt : ip.1 < s.draw_commands.length :=
        (List.getElem?_eq_some.mp hold).1
      show (s.draw_commands ++
        [some (DrawCommand.Material h.material)])[ip.1]? = some none
      rw [getElem?_append_lt _ _ _ hlt]
      exact hold
    · show termCountL (s.draw_commands ++
        [some (DrawCommand.Material h.material)]) + s.drawing.length = n
      rw [termCountL_append]
      have : termCountL [some (DrawCommand.Material h.material)] = 0 := by
        simp [termCountL, List.countP_cons, optTerm, isTerminal]
      omega

theorem drain_count (h : DrawHandle) (s : State) (n : Nat)
    (hg : GoodState s n) :
    (Draw.drain_commands h s).1.countP isTerminal = n := by
  show ((Draw.finish_remaining_drawings h s).draw_commands.filterMap
    id).countP isTerminal = n
  rw [countP_filterMap_id]
  unfold Draw.finish_remaining_drawings
  have hgF := good_flush h s n hg
  generalize hF :
    (if s.last_material = some h.material then s
      else
        { s with
          draw_commands :=
            s.draw_commands ++ [some (DrawCommand.Material h.material)]
          last_material := some h.material }) = sF at hgF
  show termCountL (State.finish_remaining_drawings sF).draw_commands = n
  obtain ⟨hF1, hF2, hF3⟩ := hgF
  unfold State.finish_remaining_drawings
  rw [fold_insert_count sF.drawing { sF with drawing := [] } hF1 hF2]
  exact hF3

theorem good_fresh (m : MaterialId) : GoodState (Draw.new m).2 0 := by
  refine ⟨?_, ?_, ?_⟩ <;> simp [Draw.new, State.empty, termCountL]

/-- C1: for every successfully executed sequence of frame operations
(primitive-constructor calls through any handles sharing the session,
scope-exit finalizations, extension captures and extension commits),
`drain_commands()` yields exactly one terminal command (`Primitive`,
`Instanced` or `Indirect`) per constructor call — none dropped and none
duplicated, whether builders were finalized by scope exit, captured by an
extension, or force-finalized at drain time. -/
theorem drain_commands_terminal_count (ops : List Op) (h : DrawHandle)
    (m : MaterialId) (s : State)
    (hrun : runOps (Draw.new m).2 ops = some s) :
    (Draw.drain_commands h s).1.countP isTerminal = reserveCount ops := by
  have hg := good_run ops (Draw.new m).2 s 0 (good_fresh m) hrun
  simpa using drain_count h s _ hg

/-- C1 witness: the terminal-count rule evaluated on a concrete one-call
frame. -/
theorem drain_commands_terminal_count_witness :
    (Draw.drain_commands H0 c1_state).1.countP isTerminal =
      reserveCount c1_ops :=
  drain_commands_terminal_count c1_ops H0 matA c1_state (by rfl)

end Nannou
